import Mathlib

/-!
Shallow embedding of the Tetris engine from `src/tetris.py` (pygame variant).

Board cells are `Nat`: `0` is empty, a nonzero tag records the tetromino
kind that occupies the cell (the Python code stores the kind's name string;
only truthiness matters for the game logic).  Piece coordinates are `Int`,
matching Python's unbounded integers.
-/

namespace Tetris


/-- `COLS = 10` from the source. -/
def COLS : Nat := 10

/-- `ROWS = 20` from the source. -/
def ROWS : Nat := 20

/-- The seven tetromino kinds (the keys of `SHAPES`). -/
inductive Kind where
  | I | O | T | S | Z | J | L
deriving DecidableEq

/-- Numeric tag written into board cells by `lock` (the Python code writes
the kind's name; any nonzero tag is equivalent for the logic). -/
def kindTag : Kind → Nat
  | .I => 1 | .O => 2 | .T => 3 | .S => 4 | .Z => 5 | .J => 6 | .L => 7

/-- The `SHAPES` table from the source. -/
def SHAPES : Kind → List (List Nat)
  | .I => [[1,1,1,1]]
  | .O => [[1,1],[1,1]]
  | .T => [[0,1,0],[1,1,1]]
  | .S => [[0,1,1],[1,1,0]]
  | .Z => [[1,1,0],[0,1,1]]
  | .J => [[1,0,0],[1,1,1]]
  | .L => [[0,0,1],[1,1,1]]

/-- `LINE_SCORES = [0, 100, 300, 500, 800]`. -/
def LINE_SCORES : List Nat := [0, 100, 300, 500, 800]

abbrev Board := List (List Nat)

/-- A piece dictionary `{'name': ..., 'shape': ..., 'x': ..., 'y': ...}`. -/
structure Piece where
  name : Kind
  shape : List (List Nat)
  x : Int
  y : Int
deriving DecidableEq

/-- Python's `zip(*ls)` (used by `rotate`): columns are produced until the
shortest row is exhausted.  The fuel is the first row's length, which is an
upper bound on the number of produced columns. -/
def pyZipAux : Nat → List (List Nat) → List (List Nat)
  | 0, _ => []
  | _ + 1, [] => []
  | n + 1, r :: rs =>
    if (r :: rs).any (fun row => row.isEmpty) then []
    else ((r :: rs).map (fun row => row.headD 0)) ::
      pyZipAux n ((r :: rs).map (fun row => row.tail))

/-- Python's `zip(*ls)` as a list of rows. -/
def pyZip (ls : List (List Nat)) : List (List Nat) :=
  pyZipAux (ls.headD []).length ls

/-- `rotate(shape)`: `[list(row) for row in zip(*shape[::-1])]`. -/
def rotate (shape : List (List Nat)) : List (List Nat) :=
  pyZip shape.reverse

/-- `new_piece()` with the random choice of the kind injected as an argument. -/
def new_piece (k : Kind) : Piece :=
  { name := k
    shape := SHAPES k
    x := (COLS : Int) / 2 - (((SHAPES k).headD []).length : Int) / 2
    y := 0 }

/-- The effective shape used by `valid`: Python's `s = shape or piece['shape']`
(an empty-list override is falsy and falls back to the piece's shape). -/
def effShape (p : Piece) (shapeO : Option (List (List Nat))) : List (List Nat) :=
  match shapeO with
  | none => p.shape
  | some s => if s.isEmpty then p.shape else s

/-- Reading `board[ny][nx]` (only meaningful for in-range indices; `valid`
guards every use with the bounds checks first, as the Python code does). -/
def cellAt (board : Board) (ny nx : Int) : Nat :=
  (board.getD ny.toNat []).getD nx.toNat 0

/-- The collision predicate `valid(board, piece, dx=0, dy=0, shape=None)`. -/
def valid (board : Board) (p : Piece) (dx dy : Int)
    (shapeO : Option (List (List Nat))) : Bool :=
  let s := effShape p shapeO
  (List.range s.length).all fun r =>
    (List.range ((s.getD r []).length)).all fun c =>
      ((s.getD r []).getD c 0 == 0) ||
        (!(decide (p.x + (c : Int) + dx < 0) ||
           decide ((COLS : Int) ≤ p.x + (c : Int) + dx) ||
           decide ((ROWS : Int) ≤ p.y + (r : Int) + dy)) &&
         !(decide (0 ≤ p.y + (r : Int) + dy) &&
           (cellAt board (p.y + (r : Int) + dy) (p.x + (c : Int) + dx) != 0)))

/-- In-place update `board[ny][nx] = v` for in-range nonnegative indices
(`lock` is only ever called at positions where `valid` has established the
bounds, so out-of-range writes never occur in reachable states). -/
def updateCell (b : Board) (ny nx : Int) (v : Nat) : Board :=
  if 0 ≤ ny ∧ 0 ≤ nx then
    b.set ny.toNat ((b.getD ny.toNat []).set nx.toNat v)
  else b

/-- `lock(board, piece)`: writes the piece's kind tag into every board cell
covered by an occupied shape cell. -/
def lock (b : Board) (p : Piece) : Board :=
  (List.range p.shape.length).foldl
    (fun b1 r =>
      (List.range ((p.shape.getD r []).length)).foldl
        (fun b2 c =>
          if (p.shape.getD r []).getD c 0 ≠ 0 then
            updateCell b2 (p.y + (r : Int)) (p.x + (c : Int)) (kindTag p.name)
          else b2)
        b1)
    b

/-- Python's `all(row)` truthiness test: every cell nonzero. -/
def isFullRow (row : List Nat) : Bool := row.all (fun c => !(c == 0))

/-- One iteration of the clearing loop: `del board[r]; board.insert(0, [0]*COLS)`. -/
def delInsert (b : Board) (r : Nat) : Board :=
  List.replicate COLS 0 :: b.eraseIdx r

/-- `clear_lines(board)`: returns the updated board and the number cleared. -/
def clear_lines (b : Board) : Board × Nat :=
  let full := (b.enum.filter (fun pr => isFullRow pr.2)).map Prod.fst
  (full.foldl delInsert b, full.length)

/-- `level_interval(level)`: frames between automatic drops. -/
def level_interval (level : Nat) : Int :=
  max 2 (48 - ((level : Int) - 1) * 4)

/-- The discrete input events recognized by the session loop (the quit key
ends the process and is handled outside the engine). -/
inductive Key where
  | left | right | up | down | space | p
deriving DecidableEq

/-- The session state of the main loop: board, active and next piece, the
score/level/lines counters, the gravity frame counter, and the pause and
game-over flags. -/
structure GState where
  board : Board
  piece : Piece
  next_piece : Piece
  score : Nat
  level : Nat
  total_lines : Nat
  fall_timer : Int
  paused : Bool
  game_over : Bool
deriving DecidableEq

/-- The hard-drop loop `while valid(board, piece, dy=1): piece['y'] += 1`,
counting the steps taken (each step scores +2 in the caller).  The fuel is
an upper bound on the number of steps; `(ROWS - y).toNat` always suffices
for a shape with at least one occupied cell. -/
def hardDropAux (b : Board) : Nat → Piece → Piece × Nat
  | 0, p => (p, 0)
  | fuel + 1, p =>
    if valid b p 0 1 none then
      match hardDropAux b fuel { p with y := p.y + 1 } with
      | (p', n) => (p', n + 1)
    else (p, 0)

/-- Processing of a single `KEYDOWN` event in the main loop.  The pause key
toggles first; every other key is a no-op while paused (`if paused: continue`
comes right after the toggle, before the movement keys). -/
def applyKey (g : GState) (k : Key) : GState :=
  match k with
  | .p => { g with paused := !g.paused }
  | .left =>
    if g.paused then g
    else if valid g.board g.piece (-1) 0 none then
      { g with piece := { g.piece with x := g.piece.x - 1 } }
    else g
  | .right =>
    if g.paused then g
    else if valid g.board g.piece 1 0 none then
      { g with piece := { g.piece with x := g.piece.x + 1 } }
    else g
  | .up =>
    if g.paused then g
    else
      let rotated := rotate g.piece.shape
      if valid g.board g.piece 0 0 (some rotated) then
        { g with piece := { g.piece with shape := rotated } }
      else g
  | .down =>
    if g.paused then g
    else if valid g.board g.piece 0 1 none then
      { g with piece := { g.piece with y := g.piece.y + 1 }
               score := g.score + 1
               fall_timer := 0 }
    else g
  | .space =>
    if g.paused then g
    else
      let res := hardDropAux g.board ((ROWS : Int) - g.piece.y).toNat g.piece
      { g with piece := res.1
               score := g.score + 2 * res.2
               fall_timer := level_interval g.level + 1 }

/-- The settle branch of the gravity step: lock the piece, clear lines,
update the counters, advance to the next piece (the fresh draw of the
random source is injected as `k`), and detect a spawn collision. -/
def lockAdvance (g : GState) (k : Kind) : GState :=
  let b1 := lock g.board g.piece
  let res := clear_lines b1
  let cleared := res.2
  let tl := g.total_lines + cleared
  { g with
    board := res.1
    total_lines := tl
    score := g.score + LINE_SCORES.getD cleared 0 * g.level
    level := tl / 10 + 1
    piece := g.next_piece
    next_piece := new_piece k
    game_over := if valid res.1 g.next_piece 0 0 none then g.game_over else true }

/-- The gravity check at the end of a running frame. -/
def gravityStep (g : GState) (k : Kind) : GState :=
  if level_interval g.level ≤ g.fall_timer then
    let g1 := { g with fall_timer := 0 }
    if valid g1.board g1.piece 0 1 none then
      { g1 with piece := { g1.piece with y := g1.piece.y + 1 } }
    else lockAdvance g1 k
  else g

/-- One iteration of the inner `while not game_over` loop (drawing omitted):
increment the frame counter, process the pending key events in order, then,
unless paused, run the gravity check. -/
def tick (g : GState) (keys : List Key) (k : Kind) : GState :=
  let g1 := keys.foldl applyKey { g with fall_timer := g.fall_timer + 1 }
  if g1.paused then g1 else gravityStep g1 k

/-- The fresh session state built at the top of the restart loop (the two
initial random draws are injected as the two pieces). -/
def initState (p np : Piece) : GState :=
  { board := List.replicate ROWS (List.replicate COLS 0)
    piece := p
    next_piece := np
    score := 0
    level := 1
    total_lines := 0
    fall_timer := 0
    paused := false
    game_over := false }

/-- One engine transition of a session: a frame of the inner loop, which
runs only while `game_over` is false. -/
inductive Step : GState → GState → Prop where
  | mk (g : GState) (keys : List Key) (k : Kind) (h : g.game_over = false) :
      Step g (tick g keys k)

/-- The session states reachable from a fresh session. -/
inductive Reachable : GState → Prop where
  | init (k1 k2 : Kind) : Reachable (initState (new_piece k1) (new_piece k2))
  | step (g g' : GState) (hg : Reachable g) (hs : Step g g') : Reachable g'

/-- A shape with at least one occupied cell. -/
def HasCell (s : List (List Nat)) : Prop :=
  ∃ r c : Nat, r < s.length ∧ c < (s.getD r []).length ∧ (s.getD r []).getD c 0 ≠ 0

/-- Indices (from `i`) of the fully-occupied rows, matching the
`enumerate`-based comprehension in `clear_lines`. -/
def fullIdxFrom (i : Nat) : Board → List Nat
  | [] => []
  | row :: t =>
    if isFullRow row then i :: fullIdxFrom (i + 1) t else fullIdxFrom (i + 1) t

/-- A board of the fixed `ROWS × COLS` dimensions. -/
def GoodDims (b : Board) : Prop :=
  b.length = ROWS ∧ ∀ row ∈ b, row.length = COLS

/-! ### The session invariant -/

/-- Invariant of every reachable session state: fixed board dimensions, a
nonnegative active-piece row, a collision-free active piece while the game
is running, a level that is a pure function of the cleared-line total, and a
next piece that is a fresh spawn. -/
def Inv (g : GState) : Prop :=
  GoodDims g.board ∧ 0 ≤ g.piece.y ∧
  (g.game_over = false → valid g.board g.piece 0 0 none = true) ∧
  g.level = g.total_lines / 10 + 1 ∧
  (∃ k, g.next_piece = new_piece k)

/-- Board used by the C2 witness: rows 18 and 19 full except columns 4–5,
so that locking the O piece at `(x, y) = (4, 18)` clears two lines. -/
def c2TwoLineState : GState :=
  { board := List.replicate 18 (List.replicate 10 0) ++
      [[1,1,1,1,0,0,1,1,1,1], [1,1,1,1,0,0,1,1,1,1]]
    piece := { name := Kind.O, shape := SHAPES Kind.O, x := 4, y := 18 }
    next_piece := new_piece Kind.I
    score := 0
    level := 3
    total_lines := 22
    fall_timer := 0
    paused := false
    game_over := false }

/-- Board used by the C2 witness: rows 17–19 full except column 4, so that
locking a vertical I piece at `(4, 16)` clears three lines. -/
def c2ThreeLineState : GState :=
  { board := List.replicate 17 (List.replicate 10 0) ++
      [[1,1,1,1,0,1,1,1,1,1], [1,1,1,1,0,1,1,1,1,1], [1,1,1,1,0,1,1,1,1,1]]
    piece := { name := Kind.I, shape := [[1],[1],[1],[1]], x := 4, y := 16 }
    next_piece := new_piece Kind.I
    score := 0
    level := 1
    total_lines := 8
    fall_timer := 0
    paused := false
    game_over := false }

/-- State used by the C4 witness: the spawn cell `(0, 4)` is occupied, the
active O piece sits on the floor, and the gravity interval elapses on the
next frame, so the tick locks the piece and the fresh spawn collides. -/
def c4SpawnBlocked : GState :=
  { board := [0,0,0,0,1,0,0,0,0,0] :: List.replicate 19 (List.replicate 10 0)
    piece := { name := Kind.O, shape := SHAPES Kind.O, x := 0, y := 18 }
    next_piece := new_piece Kind.O
    score := 0
    level := 1
    total_lines := 0
    fall_timer := 47
    paused := false
    game_over := false }

/-- A marker row used by the C3 example board: not full, identifiable. -/
def c3Row (i : Nat) : List Nat := (i + 1) :: List.replicate 9 0

/-- Example board for C3: rows 2 and 5 fully occupied, all others marker rows. -/
def c3Board : Board :=
  (List.range 20).map (fun i =>
    if i = 2 ∨ i = 5 then List.replicate 10 1 else c3Row i)

/-- State used by the C6 counterexample and witness: a freshly started but
paused session. -/
def c6PausedState : GState :=
  { board := List.replicate 20 (List.replicate 10 0)
    piece := new_piece Kind.O
    next_piece := new_piece Kind.I
    score := 0
    level := 1
    total_lines := 0
    fall_timer := 0
    paused := true
    game_over := false }

/-- State used by the C7 witness: an O piece one valid step above the floor
of an empty board. -/
def c7DropState : GState :=
  { board := List.replicate 20 (List.replicate 10 0)
    piece := { name := Kind.O, shape := SHAPES Kind.O, x := 4, y := 17 }
    next_piece := new_piece Kind.I
    score := 0
    level := 1
    total_lines := 0
    fall_timer := 0
    paused := false
    game_over := false }

/-- Modelled from the spec: the plain matrix transpose used by the spec's
description of `rotate` as `transpose(reverse(rows))` (column `j` of the
result collects entry `j` of every row). -/
def transposeSpec (m : List (List Nat)) : List (List Nat) :=
  (List.range (m.headD []).length).map (fun j => m.map (fun row => row.getD j 0))

/-- Cell `(i, j)` of a matrix, 0 outside. -/
def cellD (m : List (List Nat)) (i j : Nat) : Nat := (m.getD i []).getD j 0

/-- Occupied-cell count of a shape matrix. -/
def cellCount (m : List (List Nat)) : Nat :=
  (m.map (fun row => row.countP (fun c => !(c == 0)))).sum

/-- Relative offsets `(row, col)` of the occupied cells of a shape matrix. -/
def offsets (m : List (List Nat)) : List (Nat × Nat) :=
  (m.enum.map (fun pr =>
    pr.2.enum.filterMap (fun qc => if qc.2 ≠ 0 then some (pr.1, qc.1) else none))).flatten

/-! ### Characterization of the collision predicate -/

theorem valid_true_iff (b : Board) (p : Piece) (dx dy : Int)
    (so : Option (List (List Nat))) :
    valid b p dx dy so = true ↔
      ∀ r c : Nat, r < (effShape p so).length →
        c < ((effShape p so).getD r []).length →
        ((effShape p so).getD r []).getD c 0 ≠ 0 →
        (0 ≤ p.x + (c : Int) + dx ∧ p.x + (c : Int) + dx < (COLS : Int) ∧
          p.y + (r : Int) + dy < (ROWS : Int) ∧
          (0 ≤ p.y + (r : Int) + dy →
            cellAt b (p.y + (r : Int) + dy) (p.x + (c : Int) + dx) = 0)) := by
  simp only [valid, List.all_eq_true, List.mem_range, Bool.or_eq_true, Bool.and_eq_true,
    Bool.not_eq_true', Bool.or_eq_false_iff, Bool.and_eq_false_iff,
    decide_eq_true_eq, decide_eq_false_iff_not, beq_iff_eq, bne_eq_false_iff_eq,
    not_lt, not_le]
  constructor
  · intro h r c hr hc hcell
    have h2 := h r hr c hc
    rcases h2 with h2 | ⟨⟨⟨h3, h4⟩, h5⟩, h6⟩
    · exact absurd h2 hcell
    · refine ⟨h3, h4, h5, fun hny => ?_⟩
      rcases h6 with h6 | h6
      · omega
      · exact h6
  · intro h r hr c hc
    by_cases hcell : ((effShape p so).getD r []).getD c 0 = 0
    · exact Or.inl hcell
    · obtain ⟨h3, h4, h5, h6⟩ := h r c hr hc hcell
      refine Or.inr ⟨⟨⟨h3, h4⟩, h5⟩, ?_⟩
      by_cases hny : 0 ≤ p.y + (r : Int) + dy
      · exact Or.inr (h6 hny)
      · exact Or.inl (by omega)

theorem valid_false_iff (b : Board) (p : Piece) (dx dy : Int)
    (so : Option (List (List Nat))) :
    valid b p dx dy so = false ↔
      ∃ r c : Nat, r < (effShape p so).length ∧
        c < ((effShape p so).getD r []).length ∧
        ((effShape p so).getD r []).getD c 0 ≠ 0 ∧
        (p.x + (c : Int) + dx < 0 ∨ (COLS : Int) ≤ p.x + (c : Int) + dx ∨
          (ROWS : Int) ≤ p.y + (r : Int) + dy ∨
          (0 ≤ p.y + (r : Int) + dy ∧
            cellAt b (p.y + (r : Int) + dy) (p.x + (c : Int) + dx) ≠ 0)) := by
  constructor
  · intro hf
    have ht : ¬ (valid b p dx dy so = true) := by simp [hf]
    rw [valid_true_iff] at ht
    push_neg at ht
    obtain ⟨r, c, hr, hc, hcell, hbad⟩ := ht
    refine ⟨r, c, hr, hc, hcell, ?_⟩
    by_cases h1 : p.x + (c : Int) + dx < 0
    · exact Or.inl h1
    by_cases h2 : (COLS : Int) ≤ p.x + (c : Int) + dx
    · exact Or.inr (Or.inl h2)
    by_cases h3 : (ROWS : Int) ≤ p.y + (r : Int) + dy
    · exact Or.inr (Or.inr (Or.inl h3))
    obtain ⟨h4, h5⟩ := hbad (by omega) (by omega) (by omega)
    exact Or.inr (Or.inr (Or.inr ⟨h4, h5⟩))
  · rintro ⟨r, c, hr, hc, hcell, hbad⟩
    rw [Bool.eq_false_iff]
    intro hv
    rw [valid_true_iff] at hv
    obtain ⟨h3, h4, h5, h6⟩ := hv r c hr hc hcell
    rcases hbad with h | h | h | ⟨h7, h8⟩
    · omega
    · omega
    · omega
    · exact h8 (h6 h7)

/-- `valid` depends on its piece, offsets and shape override only through the
effective shape and the absolute position of its top-left cell. -/
theorem valid_congr (b : Board) (p q : Piece) (dx dy dx' dy' : Int)
    (so so' : Option (List (List Nat)))
    (hs : effShape p so = effShape q so')
    (hx : p.x + dx = q.x + dx') (hy : p.y + dy = q.y + dy') :
    valid b p dx dy so = valid b q dx' dy' so' := by
  rw [Bool.eq_iff_iff, valid_true_iff, valid_true_iff, hs]
  constructor <;> intro h r c hr hc hcell <;> have h2 := h r c hr hc hcell
  · have ex : q.x + (c : Int) + dx' = p.x + (c : Int) + dx := by omega
    have ey : q.y + (r : Int) + dy' = p.y + (r : Int) + dy := by omega
    rw [ex, ey]
    exact h2
  · have ex : p.x + (c : Int) + dx = q.x + (c : Int) + dx' := by omega
    have ey : p.y + (r : Int) + dy = q.y + (r : Int) + dy' := by omega
    rw [ex, ey]
    exact h2

theorem valid_set_x (b : Board) (p : Piece) (d : Int) :
    valid b { p with x := p.x + d } 0 0 none = valid b p d 0 none :=
  valid_congr b _ p 0 0 d 0 none none rfl
    (show p.x + d + 0 = p.x + d by omega) (show p.y + 0 = p.y + 0 from rfl)

theorem valid_set_y (b : Board) (p : Piece) (d : Int) :
    valid b { p with y := p.y + d } 0 0 none = valid b p 0 d none :=
  valid_congr b _ p 0 0 0 d none none rfl
    (show p.x + 0 = p.x + 0 from rfl) (show p.y + d + 0 = p.y + d by omega)

theorem valid_some_shape (b : Board) (p : Piece) (s : List (List Nat)) (h : s ≠ []) :
    valid b p 0 0 (some s) = valid b { p with shape := s } 0 0 none := by
  cases s with
  | nil => exact absurd rfl h
  | cons a t => exact valid_congr b p _ 0 0 0 0 (some (a :: t)) none rfl rfl rfl

theorem valid_nil_shape (b : Board) (p : Piece) (dx dy : Int) (h : p.shape = []) :
    valid b p dx dy none = true := by
  rw [valid_true_iff]
  intro r c hr
  simp [effShape, h] at hr

/-! ### The hard-drop loop -/

theorem hardDropAux_zero_of_invalid (b : Board) (fuel : Nat) (p : Piece)
    (h : valid b p 0 1 none = false) : hardDropAux b fuel p = (p, 0) := by
  cases fuel <;> simp [hardDropAux, h]

theorem hardDropAux_fields (b : Board) :
    ∀ (fuel : Nat) (p : Piece),
      (hardDropAux b fuel p).1.name = p.name ∧
      (hardDropAux b fuel p).1.shape = p.shape ∧
      (hardDropAux b fuel p).1.x = p.x ∧
      (hardDropAux b fuel p).1.y = p.y + (hardDropAux b fuel p).2 := by
  intro fuel
  induction fuel with
  | zero => intro p; simp [hardDropAux]
  | succ n ih =>
    intro p
    by_cases hv : valid b p 0 1 none = true
    · have ih2 := ih { p with y := p.y + 1 }
      rcases hres : hardDropAux b n { p with y := p.y + 1 } with ⟨p', m⟩
      rw [hres] at ih2
      simp only [hardDropAux, hv, if_true, hres]
      refine ⟨ih2.1, ih2.2.1, ih2.2.2.1, ?_⟩
      have := ih2.2.2.2
      simp only at this ⊢
      omega
    · rw [Bool.not_eq_true] at hv
      simp [hardDropAux_zero_of_invalid b _ p hv]

theorem hardDropAux_step_valid (b : Board) :
    ∀ (fuel : Nat) (p : Piece) (j : Nat), j < (hardDropAux b fuel p).2 →
      valid b { p with y := p.y + (j : Int) } 0 1 none = true := by
  intro fuel
  induction fuel with
  | zero => intro p j hj; simp [hardDropAux] at hj
  | succ n ih =>
    intro p j hj
    by_cases hv : valid b p 0 1 none = true
    · rcases hres : hardDropAux b n { p with y := p.y + 1 } with ⟨p', m⟩
      rw [show hardDropAux b (n+1) p = (p', m + 1) by
        simp only [hardDropAux, hv, if_true, hres]] at hj
      cases j with
      | zero =>
        push_cast
        rw [valid_congr b { p with y := p.y + (0 : Int) } p 0 1 0 1 none none rfl rfl
          (show p.y + (0 : Int) + 1 = p.y + 1 by omega)]
        exact hv
      | succ j' =>
        have hj' : j' < (hardDropAux b n { p with y := p.y + 1 }).2 := by
          rw [hres]; simpa using hj
        have hstep := ih { p with y := p.y + 1 } j' hj'
        dsimp only at hstep
        push_cast
        rw [valid_congr b { p with y := p.y + ((j' : Int) + 1) }
          { p with y := p.y + 1 + (j' : Int) } 0 1 0 1 none none rfl rfl
          (by dsimp only; omega)]
        exact hstep
    · rw [Bool.not_eq_true] at hv
      rw [hardDropAux_zero_of_invalid b _ p hv] at hj
      simp at hj

theorem valid_dy1_false_of_low (b : Board) (p : Piece) (hc : HasCell p.shape)
    (hy : (ROWS : Int) ≤ p.y) : valid b p 0 1 none = false := by
  obtain ⟨r, c, hr, hcl, hcell⟩ := hc
  rw [valid_false_iff]
  exact ⟨r, c, hr, hcl, hcell, Or.inr (Or.inr (Or.inl (by omega)))⟩

theorem valid_dy1_true_y_le (b : Board) (p : Piece) (hc : HasCell p.shape)
    (hv : valid b p 0 1 none = true) : p.y ≤ (ROWS : Int) - 2 := by
  obtain ⟨r, c, hr, hcl, hcell⟩ := hc
  rw [valid_true_iff] at hv
  have := (hv r c hr hcl hcell).2.2.1
  simp [ROWS] at this ⊢
  omega

theorem hardDropAux_final_invalid (b : Board) :
    ∀ (fuel : Nat) (p : Piece), HasCell p.shape →
      ((ROWS : Int) - p.y).toNat ≤ fuel →
      valid b (hardDropAux b fuel p).1 0 1 none = false := by
  intro fuel
  induction fuel with
  | zero =>
    intro p hc hfuel
    have hy : (ROWS : Int) ≤ p.y := by omega
    simpa [hardDropAux] using valid_dy1_false_of_low b p hc hy
  | succ n ih =>
    intro p hc hfuel
    by_cases hv : valid b p 0 1 none = true
    · have hy := valid_dy1_true_y_le b p hc hv
      rcases hres : hardDropAux b n { p with y := p.y + 1 } with ⟨p', m⟩
      have := ih { p with y := p.y + 1 } hc (by simp [ROWS] at hy hfuel ⊢; omega)
      rw [hres] at this
      simp only [hardDropAux, hv, if_true, hres]
      exact this
    · rw [Bool.not_eq_true] at hv
      rw [hardDropAux_zero_of_invalid b _ p hv]
      exact hv

theorem enumFrom_full_eq (b : Board) : ∀ i : Nat,
    ((List.enumFrom i b).filter (fun pr => isFullRow pr.2)).map Prod.fst =
      fullIdxFrom i b := by
  induction b with
  | nil => intro i; simp [fullIdxFrom]
  | cons row t ih =>
    intro i
    by_cases h : isFullRow row = true
    · simp [List.enumFrom, List.filter_cons, h, fullIdxFrom, ih]
    · rw [Bool.not_eq_true] at h
      simp [List.enumFrom, List.filter_cons, h, fullIdxFrom, ih]

theorem fullIdxFrom_length (b : Board) : ∀ i : Nat,
    (fullIdxFrom i b).length = b.countP isFullRow := by
  induction b with
  | nil => intro i; simp [fullIdxFrom]
  | cons row t ih =>
    intro i
    by_cases h : isFullRow row = true
    · simp [fullIdxFrom, h, List.countP_cons, ih]
    · rw [Bool.not_eq_true] at h
      simp [fullIdxFrom, h, List.countP_cons, ih]

theorem foldl_delInsert (t : Board) : ∀ front : Board,
    (fullIdxFrom front.length t).foldl delInsert (front ++ t) =
      List.replicate (t.countP isFullRow) (List.replicate COLS 0) ++ front ++
        t.filter (fun r => !(isFullRow r)) := by
  induction t with
  | nil => intro front; simp [fullIdxFrom]
  | cons row tt ih =>
    intro front
    by_cases h : isFullRow row = true
    · rw [show fullIdxFrom front.length (row :: tt) =
        front.length :: fullIdxFrom (front.length + 1) tt by simp [fullIdxFrom, h]]
      rw [List.foldl_cons]
      have hdel : delInsert (front ++ row :: tt) front.length =
          (List.replicate COLS 0 :: front) ++ tt := by
        simp [delInsert, List.eraseIdx_append_of_length_le (le_refl front.length)]
      rw [hdel]
      have hih := ih (List.replicate COLS 0 :: front)
      rw [show (List.replicate COLS 0 :: front).length = front.length + 1 by simp] at hih
      rw [hih]
      simp only [List.countP_cons, List.filter_cons, h, if_true, Bool.not_true]
      rw [List.replicate_succ', List.append_assoc]
      simp
    · rw [Bool.not_eq_true] at h
      rw [show fullIdxFrom front.length (row :: tt) =
        fullIdxFrom (front.length + 1) tt by simp [fullIdxFrom, h]]
      have hih := ih (front ++ [row])
      rw [show (front ++ [row]).length = front.length + 1 by simp] at hih
      rw [show front ++ row :: tt = (front ++ [row]) ++ tt by simp]
      rw [hih]
      simp [List.countP_cons, List.filter_cons, h, List.append_assoc]

theorem clear_lines_eq (b : Board) :
    clear_lines b =
      (List.replicate (b.countP isFullRow) (List.replicate COLS 0) ++
        b.filter (fun r => !(isFullRow r)),
       b.countP isFullRow) := by
  unfold clear_lines
  dsimp only
  rw [show b.enum = List.enumFrom 0 b from rfl, enumFrom_full_eq b 0, fullIdxFrom_length]
  have hmain := foldl_delInsert b []
  simpa using hmain

theorem foldlPreserves {α β : Type} (P : α → Prop) (f : α → β → α)
    (H : ∀ a x, P a → P (f a x)) :
    ∀ (l : List β) (a : α), P a → P (l.foldl f a) := by
  intro l
  induction l with
  | nil => intro a ha; exact ha
  | cons x t ih => intro a ha; exact ih (f a x) (H a x ha)

theorem updateCell_dims (b : Board) (ny nx : Int) (v : Nat) (h : GoodDims b) :
    GoodDims (updateCell b ny nx v) := by
  unfold updateCell
  split
  · by_cases hlt : ny.toNat < b.length
    · refine ⟨by simp [h.1], ?_⟩
      intro row hrow
      rcases List.mem_or_eq_of_mem_set hrow with hmem | heq
      · exact h.2 row hmem
      · subst heq
        rw [List.length_set]
        have hget : b.getD ny.toNat [] = b[ny.toNat] := by
          simp [List.getD_eq_getElem?_getD, List.getElem?_eq_getElem hlt]
        rw [hget]
        exact h.2 _ (List.getElem_mem hlt)
    · rw [List.set_eq_of_length_le (by omega)]
      exact h
  · exact h

theorem lock_dims (b : Board) (p : Piece) (h : GoodDims b) : GoodDims (lock b p) := by
  unfold lock
  refine foldlPreserves GoodDims _ ?_ _ b h
  intro b1 r h1
  refine foldlPreserves GoodDims _ ?_ _ b1 h1
  intro b2 c h2
  split
  · exact updateCell_dims _ _ _ _ h2
  · exact h2

theorem countP_full_filter_length (b : Board) :
    b.countP isFullRow + (b.filter (fun r => !(isFullRow r))).length = b.length := by
  induction b with
  | nil => rfl
  | cons row t ih =>
    by_cases h : isFullRow row = true <;>
      simp [List.countP_cons, List.filter_cons, h] <;> omega

theorem clear_lines_dims (b : Board) (h : GoodDims b) :
    GoodDims (clear_lines b).1 := by
  rw [clear_lines_eq]
  constructor
  · simp only [List.length_append, List.length_replicate]
    have h1 := countP_full_filter_length b
    have h2 := h.1
    omega
  · intro row hrow
    rcases List.mem_append.1 hrow with hmem | hmem
    · rw [List.eq_of_mem_replicate hmem]
      simp
    · exact h.2 row (List.mem_of_mem_filter hmem)

/-! ### Frame lemmas for the per-event and per-tick updates -/

theorem applyKey_frame (g : GState) (k : Key) :
    (applyKey g k).board = g.board ∧
    (applyKey g k).next_piece = g.next_piece ∧
    (applyKey g k).level = g.level ∧
    (applyKey g k).total_lines = g.total_lines ∧
    (applyKey g k).game_over = g.game_over ∧
    g.score ≤ (applyKey g k).score ∧
    g.piece.y ≤ (applyKey g k).piece.y := by
  cases k with
  | p => exact ⟨rfl, rfl, rfl, rfl, rfl, le_refl _, le_refl _⟩
  | left => dsimp only [applyKey]; split_ifs <;> simp
  | right => dsimp only [applyKey]; split_ifs <;> simp
  | up => dsimp only [applyKey]; split_ifs <;> simp
  | down => dsimp only [applyKey]; split_ifs <;> simp
  | space =>
    dsimp only [applyKey]
    split_ifs with hp
    · simp
    · have hf := hardDropAux_fields g.board ((ROWS : Int) - g.piece.y).toNat g.piece
      refine ⟨rfl, rfl, rfl, rfl, rfl, Nat.le_add_right _ _, ?_⟩
      have hy := hf.2.2.2
      dsimp only
      omega

theorem foldlKeys_frame (keys : List Key) : ∀ g : GState,
    (keys.foldl applyKey g).board = g.board ∧
    (keys.foldl applyKey g).next_piece = g.next_piece ∧
    (keys.foldl applyKey g).level = g.level ∧
    (keys.foldl applyKey g).total_lines = g.total_lines ∧
    (keys.foldl applyKey g).game_over = g.game_over ∧
    g.score ≤ (keys.foldl applyKey g).score := by
  induction keys with
  | nil => intro g; exact ⟨rfl, rfl, rfl, rfl, rfl, le_refl _⟩
  | cons key t ih =>
    intro g
    obtain ⟨b1, n1, l1, t1, o1, s1, _⟩ := applyKey_frame g key
    obtain ⟨b2, n2, l2, t2, o2, s2⟩ := ih (applyKey g key)
    rw [List.foldl_cons]
    exact ⟨b2.trans b1, n2.trans n1, l2.trans l1, t2.trans t1, o2.trans o1,
      le_trans s1 s2⟩

/-! ### The active piece stays valid -/

theorem hardDropAux_keeps_valid (b : Board) : ∀ (fuel : Nat) (p : Piece),
    valid b p 0 0 none = true → valid b (hardDropAux b fuel p).1 0 0 none = true := by
  intro fuel
  induction fuel with
  | zero => intro p h; simpa [hardDropAux] using h
  | succ n ih =>
    intro p h
    by_cases hv : valid b p 0 1 none = true
    · rcases hres : hardDropAux b n { p with y := p.y + 1 } with ⟨p', m⟩
      have h1 : valid b { p with y := p.y + 1 } 0 0 none = true := by
        rw [valid_congr b { p with y := p.y + 1 } p 0 0 0 1 none none rfl rfl
          (by dsimp only; omega)]
        exact hv
      have h2 := ih _ h1
      rw [hres] at h2
      simp only [hardDropAux, hv, if_true, hres]
      exact h2
    · rw [Bool.not_eq_true] at hv
      rw [hardDropAux_zero_of_invalid b _ p hv]
      exact h

theorem applyKey_valid (g : GState) (k : Key)
    (h : valid g.board g.piece 0 0 none = true) :
    valid (applyKey g k).board (applyKey g k).piece 0 0 none = true := by
  cases k with
  | p => exact h
  | left =>
    dsimp only [applyKey]
    split_ifs with hp hv
    · exact h
    · rw [valid_congr g.board { g.piece with x := g.piece.x - 1 } g.piece 0 0 (-1) 0
        none none rfl (by dsimp only; omega) rfl]
      exact hv
    · exact h
  | right =>
    dsimp only [applyKey]
    split_ifs with hp hv
    · exact h
    · rw [valid_congr g.board { g.piece with x := g.piece.x + 1 } g.piece 0 0 1 0
        none none rfl (by dsimp only; omega) rfl]
      exact hv
    · exact h
  | up =>
    dsimp only [applyKey]
    split_ifs with hp hv
    · exact h
    · by_cases hr : rotate g.piece.shape = []
      · exact valid_nil_shape _ _ 0 0 (by dsimp only; exact hr)
      · rw [← valid_some_shape _ _ _ hr]
        exact hv
    · exact h
  | down =>
    dsimp only [applyKey]
    split_ifs with hp hv
    · exact h
    · rw [valid_congr g.board { g.piece with y := g.piece.y + 1 } g.piece 0 0 0 1
        none none rfl rfl (by dsimp only; omega)]
      exact hv
    · exact h
  | space =>
    dsimp only [applyKey]
    split_ifs with hp
    · exact h
    · exact hardDropAux_keeps_valid g.board _ g.piece h

theorem applyKey_inv (g : GState) (k : Key) (h : Inv g) : Inv (applyKey g k) := by
  obtain ⟨hd, hy, hv, hl, hn⟩ := h
  obtain ⟨b1, n1, l1, t1, o1, _, y1⟩ := applyKey_frame g k
  refine ⟨by rw [b1]; exact hd, by omega, ?_, by rw [l1, t1]; exact hl,
    by rw [n1]; exact hn⟩
  intro hgo
  rw [o1] at hgo
  exact applyKey_valid g k (hv hgo)

theorem lockAdvance_inv (g : GState) (k : Kind) (h : Inv g) : Inv (lockAdvance g k) := by
  obtain ⟨hd, hy, hv, hl, ⟨k0, hk0⟩⟩ := h
  unfold lockAdvance
  dsimp only
  refine ⟨clear_lines_dims _ (lock_dims _ _ hd), ?_, ?_, rfl, ⟨k, rfl⟩⟩
  · rw [hk0]
    exact le_refl 0
  · intro hgo
    by_cases hvn : valid (clear_lines (lock g.board g.piece)).1 g.next_piece 0 0 none = true
    · exact hvn
    · simp [hvn] at hgo

theorem gravityStep_inv (g : GState) (k : Kind) (h : Inv g) : Inv (gravityStep g k) := by
  dsimp only [gravityStep]
  split_ifs with ht hv
  · obtain ⟨hd, hy, _, hl, hn⟩ := h
    refine ⟨hd, by dsimp only; omega, ?_, hl, hn⟩
    intro _
    dsimp only
    rw [valid_set_y g.board g.piece 1]
    exact hv
  · exact lockAdvance_inv _ k h
  · exact h

theorem tick_inv (g : GState) (keys : List Key) (k : Kind) (h : Inv g) :
    Inv (tick g keys k) := by
  unfold tick
  dsimp only
  have h0 : Inv { g with fall_timer := g.fall_timer + 1 } := h
  have h1 := foldlPreserves Inv applyKey (fun a x ha => applyKey_inv a x ha) keys _ h0
  split_ifs with hp
  · exact h1
  · exact gravityStep_inv _ k h1

theorem valid_empty_spawn (k : Kind) :
    valid (List.replicate ROWS (List.replicate COLS 0)) (new_piece k) 0 0 none = true := by
  cases k <;> decide

theorem reachable_inv (g : GState) (h : Reachable g) : Inv g := by
  induction h with
  | init k1 k2 =>
    refine ⟨⟨by simp [initState], ?_⟩, le_refl 0, fun _ => ?_, show (1 : Nat) = 0 / 10 + 1 by decide, ⟨k2, rfl⟩⟩
    · intro row hrow
      rw [List.eq_of_mem_replicate hrow]
      simp
    · exact valid_empty_spawn k1
  | step g g' hg hs ih =>
    cases hs with
    | mk keys k hgo => exact tick_inv g keys k ih

theorem gravityStep_mono (g : GState) (k : Kind) :
    g.score ≤ (gravityStep g k).score ∧ g.total_lines ≤ (gravityStep g k).total_lines := by
  dsimp only [gravityStep]
  split_ifs with ht hv
  · exact ⟨le_refl _, le_refl _⟩
  · unfold lockAdvance
    dsimp only
    exact ⟨Nat.le_add_right _ _, Nat.le_add_right _ _⟩
  · exact ⟨le_refl _, le_refl _⟩

theorem tick_mono (g : GState) (keys : List Key) (k : Kind) :
    g.score ≤ (tick g keys k).score ∧ g.total_lines ≤ (tick g keys k).total_lines := by
  unfold tick
  dsimp only
  obtain ⟨_, _, _, t1, _, s1⟩ := foldlKeys_frame keys { g with fall_timer := g.fall_timer + 1 }
  split_ifs with hp
  · exact ⟨s1, le_of_eq t1.symm⟩
  · have h2 := gravityStep_mono (keys.foldl applyKey { g with fall_timer := g.fall_timer + 1 }) k
    exact ⟨le_trans s1 h2.1, le_trans (le_of_eq t1.symm) h2.2⟩

/-- C9: over every engine transition of a session, score and total_lines never
decrease, and before and after every transition the level equals
`total_lines / 10 + 1` (level is a pure function of the cleared-line total). -/
theorem claim_c9_monotone_and_level (g g' : GState) (hg : Reachable g) (hs : Step g g') :
    g.score ≤ g'.score ∧ g.total_lines ≤ g'.total_lines ∧
    g.level = g.total_lines / 10 + 1 ∧ g'.level = g'.total_lines / 10 + 1 := by
  cases hs with
  | mk keys k hgo =>
    have hi := reachable_inv g hg
    have hm := tick_mono g keys k
    have hi2 := tick_inv g keys k hi
    exact ⟨hm.1, hm.2, hi.2.2.2.1, hi2.2.2.2.1⟩

theorem claim_c9_witness :
    (initState (new_piece Kind.I) (new_piece Kind.O)).score ≤
        (tick (initState (new_piece Kind.I) (new_piece Kind.O)) [] Kind.T).score ∧
    (initState (new_piece Kind.I) (new_piece Kind.O)).total_lines ≤
        (tick (initState (new_piece Kind.I) (new_piece Kind.O)) [] Kind.T).total_lines ∧
    (initState (new_piece Kind.I) (new_piece Kind.O)).level =
        (initState (new_piece Kind.I) (new_piece Kind.O)).total_lines / 10 + 1 ∧
    (tick (initState (new_piece Kind.I) (new_piece Kind.O)) [] Kind.T).level =
        (tick (initState (new_piece Kind.I) (new_piece Kind.O)) [] Kind.T).total_lines / 10 + 1 :=
  claim_c9_monotone_and_level _ _ (Reachable.init Kind.I Kind.O)
    (Step.mk _ [] Kind.T rfl)

/-- C10: every reachable running state has a `valid` active piece, a 20-row
board of 10-wide rows, and every occupied cell of the active piece maps to an
in-range board coordinate (so `lock` only ever writes inside the grid). -/
theorem claim_c10_piece_always_valid (g : GState) (h : Reachable g) :
    g.board.length = ROWS ∧ (∀ row ∈ g.board, row.length = COLS) ∧
    (g.game_over = false →
      valid g.board g.piece 0 0 none = true ∧
      ∀ r c : Nat, r < g.piece.shape.length →
        c < (g.piece.shape.getD r []).length →
        (g.piece.shape.getD r []).getD c 0 ≠ 0 →
        0 ≤ g.piece.x + (c : Int) ∧ g.piece.x + (c : Int) < (COLS : Int) ∧
        0 ≤ g.piece.y + (r : Int) ∧ g.piece.y + (r : Int) < (ROWS : Int)) := by
  obtain ⟨⟨hlen, hrows⟩, hy, hv, _, _⟩ := reachable_inv g h
  refine ⟨hlen, hrows, fun hgo => ⟨hv hgo, ?_⟩⟩
  intro r c hr hc hcell
  have hv2 := (valid_true_iff g.board g.piece 0 0 none).1 (hv hgo) r c hr hc hcell
  obtain ⟨h1, h2, h3, _⟩ := hv2
  refine ⟨by omega, by omega, by omega, by omega⟩

theorem claim_c10_witness :
    (initState (new_piece Kind.T) (new_piece Kind.O)).board.length = ROWS ∧
    valid (initState (new_piece Kind.T) (new_piece Kind.O)).board
      (initState (new_piece Kind.T) (new_piece Kind.O)).piece 0 0 none = true :=
  ⟨(claim_c10_piece_always_valid _ (Reachable.init Kind.T Kind.O)).1,
   ((claim_c10_piece_always_valid _ (Reachable.init Kind.T Kind.O)).2.2 rfl).1⟩

/-- C1: `valid` returns false exactly when some occupied cell of the
(possibly overridden) shape lands on a column outside `[0, COLS)`, a row
`≥ ROWS`, or a nonnegative row whose board cell is already occupied;
negative rows are never checked against board occupancy. -/
theorem claim_c1_valid_characterization (board : Board) (p : Piece) (dx dy : Int)
    (shapeO : Option (List (List Nat))) :
    valid board p dx dy shapeO = false ↔
      ∃ r c : Nat, r < (effShape p shapeO).length ∧
        c < ((effShape p shapeO).getD r []).length ∧
        ((effShape p shapeO).getD r []).getD c 0 ≠ 0 ∧
        (p.x + (c : Int) + dx < 0 ∨ (COLS : Int) ≤ p.x + (c : Int) + dx ∨
          (ROWS : Int) ≤ p.y + (r : Int) + dy ∨
          (0 ≤ p.y + (r : Int) + dy ∧
            cellAt board (p.y + (r : Int) + dy) (p.x + (c : Int) + dx) ≠ 0)) :=
  valid_false_iff board p dx dy shapeO

/-- C2: a lock-and-advance adds `cleared` to `total_lines`, adds
`LINE_SCORES[cleared] * level` (pre-update level) to the score, then
recomputes `level = total_lines / 10 + 1`; at level 3 a double clear adds
900, and a lock taking the total from 8 to 11 sets level 2. -/
theorem claim_c2_scoring (g : GState) (k : Kind) :
    (lockAdvance g k).total_lines =
        g.total_lines + (clear_lines (lock g.board g.piece)).2 ∧
    (lockAdvance g k).score =
        g.score + LINE_SCORES.getD (clear_lines (lock g.board g.piece)).2 0 * g.level ∧
    (lockAdvance g k).level =
        (g.total_lines + (clear_lines (lock g.board g.piece)).2) / 10 + 1 ∧
    LINE_SCORES = [0, 100, 300, 500, 800] ∧
    (g.level = 3 → (clear_lines (lock g.board g.piece)).2 = 2 →
      (lockAdvance g k).score = g.score + 900) ∧
    (g.total_lines = 8 → (clear_lines (lock g.board g.piece)).2 = 3 →
      (lockAdvance g k).total_lines = 11 ∧ (lockAdvance g k).level = 2) := by
  unfold lockAdvance
  dsimp only
  refine ⟨rfl, rfl, rfl, rfl, ?_, ?_⟩
  · intro hl hc
    rw [hc, hl]
    norm_num [LINE_SCORES]
  · intro ht hc
    rw [hc, ht]
    exact ⟨rfl, rfl⟩

theorem claim_c2_witness :
    (lockAdvance c2TwoLineState Kind.I).score = c2TwoLineState.score + 900 ∧
    (lockAdvance c2ThreeLineState Kind.I).total_lines = 11 ∧
    (lockAdvance c2ThreeLineState Kind.I).level = 2 := by
  refine ⟨(claim_c2_scoring c2TwoLineState Kind.I).2.2.2.2.1 rfl (by decide), ?_, ?_⟩
  · exact ((claim_c2_scoring c2ThreeLineState Kind.I).2.2.2.2.2 rfl (by decide)).1
  · exact ((claim_c2_scoring c2ThreeLineState Kind.I).2.2.2.2.2 rfl (by decide)).2

/-- C4: a session transition exists only while `game_over` is false
(`GameOver` is terminal), and a tick ends with `game_over = true` exactly
when, after input processing, the session is unpaused, the gravity interval
has elapsed, the active piece cannot move down (so it locks), and the
freshly advanced next piece is invalid on the post-clear board at its
unchanged spawn position; reachable next pieces are always fresh spawns. -/
theorem claim_c4_game_over (gs gs' : GState) (hstep : Step gs gs') :
    gs.game_over = false ∧
    (∀ g : GState, Reachable g → ∃ k : Kind, g.next_piece = new_piece k) ∧
    (∀ (g : GState) (keys : List Key) (k : Kind), g.game_over = false →
      ((tick g keys k).game_over = true ↔
        (keys.foldl applyKey { g with fall_timer := g.fall_timer + 1 }).paused = false ∧
        level_interval (keys.foldl applyKey { g with fall_timer := g.fall_timer + 1 }).level ≤
          (keys.foldl applyKey { g with fall_timer := g.fall_timer + 1 }).fall_timer ∧
        valid (keys.foldl applyKey { g with fall_timer := g.fall_timer + 1 }).board
          (keys.foldl applyKey { g with fall_timer := g.fall_timer + 1 }).piece 0 1 none = false ∧
        valid (clear_lines (lock
            (keys.foldl applyKey { g with fall_timer := g.fall_timer + 1 }).board
            (keys.foldl applyKey { g with fall_timer := g.fall_timer + 1 }).piece)).1
          (keys.foldl applyKey { g with fall_timer := g.fall_timer + 1 }).next_piece
          0 0 none = false)) := by
  refine ⟨?_, ?_, ?_⟩
  · cases hstep with
    | mk keys k h => exact h
  · intro g h
    exact (reachable_inv g h).2.2.2.2
  · intro g keys k hgo
    unfold tick
    dsimp only
    set g1 := keys.foldl applyKey { g with fall_timer := g.fall_timer + 1 } with hg1
    have ho : g1.game_over = false := by
      obtain ⟨_, _, _, _, o1, _⟩ :=
        foldlKeys_frame keys { g with fall_timer := g.fall_timer + 1 }
      rw [hg1, o1]
      exact hgo
    split_ifs with hp
    · simp [ho, hp]
    · rw [Bool.not_eq_true] at hp
      dsimp only [gravityStep]
      split_ifs with ht hv
      · simp [ho, hv, hp]
      · unfold lockAdvance
        dsimp only
        by_cases hvn : valid (clear_lines (lock g1.board g1.piece)).1 g1.next_piece
            0 0 none = true
        · simp [hvn, ho]
        · rw [Bool.not_eq_true] at hv hvn
          simp [hvn, ho, hp, ht, hv]
      · refine ⟨fun hcontra => ?_, fun hconj => absurd hconj.2.1 ht⟩
        rw [ho] at hcontra
        exact Bool.noConfusion hcontra

theorem claim_c4_witness :
    (tick c4SpawnBlocked [] Kind.I).game_over = true := by
  have h := claim_c4_game_over c4SpawnBlocked (tick c4SpawnBlocked [] Kind.I)
    (Step.mk c4SpawnBlocked [] Kind.I rfl)
  exact (h.2.2 c4SpawnBlocked [] Kind.I rfl).mpr (by decide)

theorem claim_c3_counterexample :
    (clear_lines (List.replicate 5 (List.replicate 10 1))).2 = 5 ∧
    ¬ ((clear_lines (List.replicate 5 (List.replicate 10 1))).2 ≤ 4) := by decide

/-- C3 (amended): `clear_lines` removes exactly the fully-occupied rows,
prepends an equal number of empty rows, preserves the order of the remaining
rows, and returns the number of removed rows, which is between 0 and the
number of board rows (not capped at 4 for arbitrary boards); on the example
board with exactly rows 2 and 5 full it removes those rows and returns 2. -/
theorem claim_c3_clear_lines_amended :
    (∀ b : Board,
      clear_lines b =
        (List.replicate ((b.filter isFullRow).length) (List.replicate COLS 0) ++
           b.filter (fun r => !(isFullRow r)),
         (b.filter isFullRow).length) ∧
      (clear_lines b).2 ≤ b.length) ∧
    clear_lines c3Board =
      (List.replicate 2 (List.replicate 10 0) ++
        ((List.range 20).filter (fun i => decide (i ≠ 2 ∧ i ≠ 5))).map c3Row, 2) := by
  constructor
  · intro b
    constructor
    · rw [clear_lines_eq, List.countP_eq_length_filter]
    · rw [clear_lines_eq]
      dsimp only
      exact List.countP_le_length isFullRow
  · decide

theorem claim_c6_counterexample :
    c6PausedState.paused = true ∧
    (tick c6PausedState [Key.p, Key.down] Kind.I).score ≠ c6PausedState.score ∧
    (tick c6PausedState [Key.p, Key.down] Kind.I).piece ≠ c6PausedState.piece := by
  decide

theorem foldl_applyKey_paused (l : List Key) : ∀ g : GState, g.paused = true →
    (∀ key ∈ l, key ≠ Key.p) → l.foldl applyKey g = g := by
  induction l with
  | nil => intro g _ _; rfl
  | cons key t ih =>
    intro g hp hk
    rw [List.foldl_cons]
    have hknp : key ≠ Key.p := hk key (List.mem_cons_self key t)
    have ha : applyKey g key = g := by
      cases key with
      | p => exact absurd rfl hknp
      | left => simp [applyKey, hp]
      | right => simp [applyKey, hp]
      | up => simp [applyKey, hp]
      | down => simp [applyKey, hp]
      | space => simp [applyKey, hp]
    rw [ha]
    exact ih g hp (fun key2 hm => hk key2 (List.mem_cons_of_mem _ hm))

/-- C6 (amended): while paused, a tick whose inputs contain no pause-toggle
changes nothing but the frame counter; if a pause-toggle is among the inputs,
the session unpauses during the same tick and the remaining inputs and the
gravity check can already act (see the counterexample). -/
theorem claim_c6_pause_frozen (g : GState) (keys : List Key) (k : Kind)
    (hp : g.paused = true) (hk : ∀ key ∈ keys, key ≠ Key.p) :
    tick g keys k = { g with fall_timer := g.fall_timer + 1 } := by
  unfold tick
  dsimp only
  rw [foldl_applyKey_paused keys { g with fall_timer := g.fall_timer + 1 } hp hk]
  rw [if_pos (show ({ g with fall_timer := g.fall_timer + 1 } : GState).paused = true
    from hp)]

theorem claim_c6_witness :
    tick c6PausedState [Key.left, Key.down] Kind.I =
      { c6PausedState with fall_timer := c6PausedState.fall_timer + 1 } :=
  claim_c6_pause_frozen c6PausedState [Key.left, Key.down] Kind.I rfl (by decide)

theorem applyKey_space_eq (g : GState) (hp : g.paused = false) :
    applyKey g Key.space =
      { g with
        piece := (hardDropAux g.board ((ROWS : Int) - g.piece.y).toNat g.piece).1
        score := g.score +
          2 * (hardDropAux g.board ((ROWS : Int) - g.piece.y).toNat g.piece).2
        fall_timer := level_interval g.level + 1 } := by
  dsimp only [applyKey]
  rw [if_neg (by rw [hp]; exact Bool.false_ne_true)]

/-- C7: a hard drop moves the piece down one row per valid step, awarding 2
score per step and stopping at the first invalid step; a second hard drop
against the already-bottomed piece moves zero rows and adds zero score. -/
theorem claim_c7_hard_drop (g : GState) (hp : g.paused = false)
    (hc : HasCell g.piece.shape) :
    (applyKey g Key.space).piece.y = g.piece.y +
      ((hardDropAux g.board ((ROWS : Int) - g.piece.y).toNat g.piece).2 : Int) ∧
    (applyKey g Key.space).score = g.score +
      2 * (hardDropAux g.board ((ROWS : Int) - g.piece.y).toNat g.piece).2 ∧
    (∀ j : Nat, j < (hardDropAux g.board ((ROWS : Int) - g.piece.y).toNat g.piece).2 →
      valid g.board { g.piece with y := g.piece.y + (j : Int) } 0 1 none = true) ∧
    valid g.board (applyKey g Key.space).piece 0 1 none = false ∧
    (applyKey (applyKey g Key.space) Key.space).piece = (applyKey g Key.space).piece ∧
    (applyKey (applyKey g Key.space) Key.space).score = (applyKey g Key.space).score := by
  have hfr := hardDropAux_fields g.board ((ROWS : Int) - g.piece.y).toNat g.piece
  have hfin := hardDropAux_final_invalid g.board ((ROWS : Int) - g.piece.y).toNat
    g.piece hc (le_refl _)
  have happ := applyKey_space_eq g hp
  have hg1p : (applyKey g Key.space).paused = false := by rw [happ]; exact hp
  have hpc : (applyKey g Key.space).piece =
      (hardDropAux g.board ((ROWS : Int) - g.piece.y).toNat g.piece).1 := by rw [happ]
  have hbd : (applyKey g Key.space).board = g.board := by rw [happ]
  have hzero : hardDropAux (applyKey g Key.space).board
      ((ROWS : Int) - (applyKey g Key.space).piece.y).toNat (applyKey g Key.space).piece =
      ((applyKey g Key.space).piece, 0) := by
    apply hardDropAux_zero_of_invalid
    rw [hbd, hpc]
    exact hfin
  have happ2 := applyKey_space_eq (applyKey g Key.space) hg1p
  rw [hzero] at happ2
  refine ⟨?_, ?_, ?_, ?_, ?_, ?_⟩
  · rw [happ]
    exact hfr.2.2.2
  · rw [happ]
  · intro j hj
    exact hardDropAux_step_valid g.board _ g.piece j hj
  · rw [hpc]
    exact hfin
  · rw [happ2]
  · rw [happ2]
    dsimp only
    omega

theorem claim_c7_witness :
    (applyKey c7DropState Key.space).piece.y = c7DropState.piece.y +
      ((hardDropAux c7DropState.board ((ROWS : Int) - c7DropState.piece.y).toNat
        c7DropState.piece).2 : Int) ∧
    valid c7DropState.board (applyKey c7DropState Key.space).piece 0 1 none = false ∧
    (applyKey (applyKey c7DropState Key.space) Key.space).piece =
      (applyKey c7DropState Key.space).piece ∧
    (applyKey (applyKey c7DropState Key.space) Key.space).score =
      (applyKey c7DropState Key.space).score := by
  have h := claim_c7_hard_drop c7DropState rfl ⟨0, 0, by decide, by decide, by decide⟩
  exact ⟨h.1, h.2.2.2.1, h.2.2.2.2.1, h.2.2.2.2.2⟩

theorem claim_c8_counterexample :
    (13 : Nat) < 14 ∧ 1 ≤ (13 : Nat) ∧
    level_interval 13 = 2 ∧ level_interval 14 = 2 ∧
    ¬ (level_interval 14 < level_interval 13) := by decide

/-- C8 (amended): the gravity interval equals `max 2 (48 − (level−1)·4)`
frames, never drops below 2 (so never reaches zero or a negative value), is
non-increasing in the level, strictly decreasing up to level 13, and
constant at 2 from level 13 on — not strictly decreasing for all pairs of
levels. -/
theorem claim_c8_interval (l l1 l2 : Nat) :
    level_interval l = max 2 (48 - ((l : Int) - 1) * 4) ∧
    0 < level_interval l ∧ 2 ≤ level_interval l ∧
    (l1 ≤ l2 → level_interval l2 ≤ level_interval l1) ∧
    (1 ≤ l1 → l1 < l2 → l2 ≤ 13 → level_interval l2 < level_interval l1) ∧
    (13 ≤ l → level_interval l = 2) := by
  refine ⟨rfl, ?_, ?_, ?_, ?_, ?_⟩
  · have := le_max_left (2 : Int) (48 - ((l : Int) - 1) * 4)
    unfold level_interval
    omega
  · exact le_max_left _ _
  · intro h
    unfold level_interval
    have hc : ((l1 : Int)) ≤ (l2 : Int) := by omega
    exact max_le_max (le_refl 2) (by omega)
  · intro h1 h2 h3
    unfold level_interval
    have e1 : max (2 : Int) (48 - ((l1 : Int) - 1) * 4) = 48 - ((l1 : Int) - 1) * 4 :=
      max_eq_right (by omega)
    rw [e1]
    apply max_lt
    · omega
    · omega
  · intro h
    unfold level_interval
    exact max_eq_left (by omega)

theorem claim_c8_witness :
    level_interval 7 ≤ level_interval 3 ∧
    level_interval 7 < level_interval 3 ∧
    level_interval 14 = 2 :=
  ⟨(claim_c8_interval 14 3 7).2.2.2.1 (by decide),
   (claim_c8_interval 14 3 7).2.2.2.2.1 (by decide) (by decide) (by decide),
   (claim_c8_interval 14 3 7).2.2.2.2.2 (by decide)⟩

theorem headD_eq_getD_zero (row : List Nat) : row.headD 0 = row.getD 0 0 := by
  cases row <;> rfl

theorem tail_getD (row : List Nat) (j : Nat) : row.tail.getD j 0 = row.getD (j + 1) 0 := by
  cases row <;> rfl

theorem pyZipAux_eq : ∀ (w : Nat) (ls : List (List Nat)), ls ≠ [] →
    (∀ row ∈ ls, row.length = w) →
    pyZipAux w ls = (List.range w).map (fun j => ls.map (fun row => row.getD j 0)) := by
  intro w
  induction w with
  | zero => intro ls _ _; cases ls <;> simp [pyZipAux]
  | succ n ih =>
    intro ls hne hrect
    match ls with
    | [] => exact absurd rfl hne
    | r :: rs =>
      have hnoemp : (r :: rs).any (fun row => row.isEmpty) = false := by
        rw [List.any_eq_false]
        intro row hrow
        have := hrect row hrow
        cases row with
        | nil => simp at this
        | cons a t => simp
      have htails : ∀ row ∈ (r :: rs).map (fun row => row.tail), row.length = n := by
        intro row hrow
        obtain ⟨row0, hrow0, hback⟩ := List.mem_map.1 hrow
        have := hrect row0 hrow0
        rw [← hback]
        simp [this]
      have hstep : pyZipAux (n + 1) (r :: rs) =
          ((r :: rs).map (fun row => row.headD 0)) ::
            pyZipAux n ((r :: rs).map (fun row => row.tail)) := by
        rw [pyZipAux, if_neg (by rw [hnoemp]; exact Bool.false_ne_true)]
      rw [hstep, ih _ (by simp) htails, List.range_succ_eq_map]
      have hrfl : List.map (fun j => List.map (fun row => row.getD j 0) (r :: rs))
          (0 :: List.map Nat.succ (List.range n)) =
          (List.map (fun row => row.getD 0 0) (r :: rs)) ::
            List.map (fun j => List.map (fun row => row.getD j 0) (r :: rs))
              (List.map Nat.succ (List.range n)) := rfl
      rw [hrfl, List.map_map]
      congr 1
      · exact List.map_congr_left (fun row _ => headD_eq_getD_zero row)
      · apply List.map_congr_left
        intro j _
        simp only [Function.comp]
        rw [List.map_map]
        apply List.map_congr_left
        intro row _
        simp only [Function.comp]
        exact tail_getD row j

theorem pyZip_eq_transposeSpec (ls : List (List Nat))
    (hrect : ∀ row ∈ ls, row.length = (ls.headD []).length) :
    pyZip ls = transposeSpec ls := by
  cases ls with
  | nil => rfl
  | cons r rs =>
    unfold pyZip transposeSpec
    exact pyZipAux_eq _ _ (by simp) hrect

theorem transposeSpec_length (m : List (List Nat)) :
    (transposeSpec m).length = (m.headD []).length := by
  simp [transposeSpec]

theorem transposeSpec_rows (m : List (List Nat)) :
    ∀ row ∈ transposeSpec m, row.length = m.length := by
  intro row hrow
  obtain ⟨j, _, hback⟩ := List.mem_map.1 hrow
  rw [← hback]
  simp

theorem transposeSpec_cell (m : List (List Nat)) (i j : Nat)
    (hi : i < (m.headD []).length) (hj : j < m.length) :
    cellD (transposeSpec m) i j = cellD m j i := by
  unfold transposeSpec cellD
  rw [List.getD_eq_getElem?_getD ((List.range _).map _) i, List.getElem?_map,
    List.getElem?_range hi]
  simp only [Option.map_some', Option.getD_some]
  rw [List.getD_eq_getElem?_getD (List.map _ m) j, List.getElem?_map,
    List.getElem?_eq_getElem hj]
  simp only [Option.map_some', Option.getD_some]
  rw [List.getD_eq_getElem?_getD m j, List.getElem?_eq_getElem hj]
  simp only [Option.getD_some]

theorem getD_mem_of_lt (l : List (List Nat)) (i : Nat) (h : i < l.length) :
    l.getD i [] ∈ l := by
  rw [List.getD_eq_getElem?_getD, List.getElem?_eq_getElem h]
  exact List.getElem_mem h

theorem matrixExt (a b : List (List Nat)) (hlen : a.length = b.length)
    (hrows : ∀ i : Nat, i < a.length → (a.getD i []).length = (b.getD i []).length)
    (hcells : ∀ i j : Nat, i < a.length → j < (a.getD i []).length →
      cellD a i j = cellD b i j) :
    a = b := by
  apply List.ext_get hlen
  intro n h1 h2
  have ha : a.get ⟨n, h1⟩ = a.getD n [] := by
    rw [List.getD_eq_getElem?_getD, List.getElem?_eq_getElem h1]
    rfl
  have hb : b.get ⟨n, h2⟩ = b.getD n [] := by
    rw [List.getD_eq_getElem?_getD, List.getElem?_eq_getElem h2]
    rfl
  rw [ha, hb]
  apply List.ext_get (hrows n h1)
  intro m m1 m2
  have hc := hcells n m h1 m1
  unfold cellD at hc
  have ha2 : (a.getD n []).getD m 0 = (a.getD n []).get ⟨m, m1⟩ := by
    rw [List.getD_eq_getElem?_getD, List.getElem?_eq_getElem m1]
    rfl
  have hb2 : (b.getD n []).getD m 0 = (b.getD n []).get ⟨m, m2⟩ := by
    rw [List.getD_eq_getElem?_getD, List.getElem?_eq_getElem m2]
    rfl
  rw [ha2, hb2] at hc
  exact hc

theorem rotate_spec (s : List (List Nat)) (w : Nat) (hs : 0 < s.length)
    (hrect : ∀ row ∈ s, row.length = w) :
    (rotate s).length = w ∧ (∀ row ∈ rotate s, row.length = s.length) ∧
    (∀ i j : Nat, i < w → j < s.length →
      cellD (rotate s) i j = cellD s (s.length - 1 - j) i) := by
  have hsne : s ≠ [] := List.ne_nil_of_length_pos hs
  have hrevne : s.reverse ≠ [] := by simp [hsne]
  have hrevrect : ∀ row ∈ s.reverse, row.length = w :=
    fun row hrow => hrect row (List.mem_reverse.1 hrow)
  have hhead : (s.reverse.headD []).length = w := by
    cases hrev : s.reverse with
    | nil => exact absurd hrev hrevne
    | cons a t =>
      have ha : a ∈ s.reverse := by rw [hrev]; exact List.mem_cons_self a t
      simpa using hrevrect a ha
  have heq : rotate s = transposeSpec s.reverse := by
    unfold rotate pyZip transposeSpec
    rw [hhead, pyZipAux_eq w s.reverse hrevne hrevrect]
  refine ⟨?_, ?_, ?_⟩
  · rw [heq, transposeSpec_length, hhead]
  · intro row hrow
    rw [heq] at hrow
    simpa using transposeSpec_rows s.reverse row hrow
  · intro i j hi hj
    have hj' : j < s.reverse.length := by simpa using hj
    rw [heq, transposeSpec_cell s.reverse i j (by rw [hhead]; exact hi) hj']
    unfold cellD
    rw [List.getD_eq_getElem?_getD s.reverse j, List.getElem?_reverse hj,
      ← List.getD_eq_getElem?_getD]

theorem rotate_four (s : List (List Nat)) (w : Nat) (hw : 0 < w) (hs : 0 < s.length)
    (hrect : ∀ row ∈ s, row.length = w) :
    rotate (rotate (rotate (rotate s))) = s := by
  obtain ⟨l1, rows1, c1⟩ := rotate_spec s w hs hrect
  have hs1 : 0 < (rotate s).length := by rw [l1]; exact hw
  obtain ⟨l2, rows2, c2⟩ := rotate_spec (rotate s) s.length hs1 rows1
  have hs2 : 0 < (rotate (rotate s)).length := by rw [l2]; exact hs
  have rows2w : ∀ row ∈ rotate (rotate s), row.length = w := by
    intro row hrow
    rw [rows2 row hrow, l1]
  obtain ⟨l3, rows3, c3⟩ := rotate_spec (rotate (rotate s)) w hs2 rows2w
  have hs3 : 0 < (rotate (rotate (rotate s))).length := by rw [l3]; exact hw
  have rows3h : ∀ row ∈ rotate (rotate (rotate s)), row.length = s.length := by
    intro row hrow
    rw [rows3 row hrow, l2]
  obtain ⟨l4, rows4, c4⟩ := rotate_spec (rotate (rotate (rotate s))) s.length hs3 rows3h
  have hrow4 : ∀ i : Nat, i < s.length →
      ((rotate (rotate (rotate (rotate s)))).getD i []).length = w := by
    intro i hi
    have hmem := getD_mem_of_lt (rotate (rotate (rotate (rotate s)))) i (by rw [l4]; exact hi)
    rw [rows4 _ hmem, l3]
  have hrowS : ∀ i : Nat, i < s.length → (s.getD i []).length = w := by
    intro i hi
    exact hrect _ (getD_mem_of_lt s i hi)
  apply matrixExt
  · rw [l4]
  · intro i hi
    rw [l4] at hi
    rw [hrow4 i hi, hrowS i hi]
  · intro i j hi hj
    rw [l4] at hi
    rw [hrow4 i hi] at hj
    have step1 := c4 i j hi (by rw [l3]; exact hj)
    rw [l3] at step1
    have step2 := c3 (w - 1 - j) i (by omega) (by rw [l2]; exact hi)
    rw [l2] at step2
    have step3 := c2 (s.length - 1 - i) (w - 1 - j) (by omega) (by rw [l1]; omega)
    rw [l1] at step3
    have ej : w - 1 - (w - 1 - j) = j := by omega
    rw [ej] at step3
    have step4 := c1 j (s.length - 1 - i) hj (by omega)
    have ei : s.length - 1 - (s.length - 1 - i) = i := by omega
    rw [ei] at step4
    exact step1.trans (step2.trans (step3.trans step4))

theorem cellCount_cons (row : List Nat) (t : List (List Nat)) :
    cellCount (row :: t) = row.countP (fun c => !(c == 0)) + cellCount t := by
  simp [cellCount]

theorem cellCount_nil_rows (ls : List (List Nat)) (h : ∀ row ∈ ls, row.length = 0) :
    cellCount ls = 0 := by
  induction ls with
  | nil => rfl
  | cons row t ih =>
    have hrow : row = [] :=
      List.length_eq_zero.1 (h row (List.mem_cons_self row t))
    rw [cellCount_cons, hrow]
    simp [ih (fun r hr => h r (List.mem_cons_of_mem _ hr))]

theorem head_tail_count (ls : List (List Nat)) (h : ∀ row ∈ ls, row ≠ []) :
    (ls.map (fun row => row.headD 0)).countP (fun c => !(c == 0)) +
      cellCount (ls.map (fun row => row.tail)) = cellCount ls := by
  induction ls with
  | nil => rfl
  | cons row t ih =>
    have hrow := h row (List.mem_cons_self row t)
    have iht := ih (fun r hr => h r (List.mem_cons_of_mem _ hr))
    cases row with
    | nil => exact absurd rfl hrow
    | cons a rt =>
      simp only [List.map_cons, List.countP_cons, cellCount_cons]
      rw [show (a :: rt).headD 0 = a from rfl, show (a :: rt).tail = rt from rfl, ← iht]
      split_ifs <;> omega

theorem cellCount_pyZipAux : ∀ (w : Nat) (ls : List (List Nat)),
    (∀ row ∈ ls, row.length = w) → cellCount (pyZipAux w ls) = cellCount ls := by
  intro w
  induction w with
  | zero =>
    intro ls h
    have : pyZipAux 0 ls = [] := by cases ls <;> rfl
    rw [this]
    exact (cellCount_nil_rows ls h).symm
  | succ n ih =>
    intro ls h
    match ls with
    | [] => rfl
    | r :: rs =>
      have hne : ∀ row ∈ r :: rs, row ≠ [] := by
        intro row hrow
        have := h row hrow
        intro hnil
        rw [hnil] at this
        simp at this
      have hnoemp : (r :: rs).any (fun row => row.isEmpty) = false := by
        rw [List.any_eq_false]
        intro row hrow
        have := hne row hrow
        cases row with
        | nil => exact absurd rfl this
        | cons a t => simp
      have htails : ∀ row ∈ (r :: rs).map (fun row => row.tail), row.length = n := by
        intro row hrow
        obtain ⟨row0, hrow0, hback⟩ := List.mem_map.1 hrow
        have := h row0 hrow0
        rw [← hback]
        simp [this]
      rw [show pyZipAux (n + 1) (r :: rs) =
          ((r :: rs).map (fun row => row.headD 0)) ::
            pyZipAux n ((r :: rs).map (fun row => row.tail)) by
        rw [pyZipAux, if_neg (by rw [hnoemp]; exact Bool.false_ne_true)]]
      rw [cellCount_cons, ih _ htails]
      exact head_tail_count (r :: rs) hne

theorem cellCount_reverse (s : List (List Nat)) :
    cellCount s.reverse = cellCount s := by
  unfold cellCount
  rw [List.map_reverse, List.sum_reverse]

theorem cellCount_rotate (s : List (List Nat)) (w : Nat)
    (hrect : ∀ row ∈ s, row.length = w) :
    cellCount (rotate s) = cellCount s := by
  cases hsnil : s with
  | nil => rfl
  | cons r rs =>
    rw [← hsnil]
    have hsne : s ≠ [] := by rw [hsnil]; exact List.cons_ne_nil r rs
    have hrevne : s.reverse ≠ [] := by simp [hsne]
    have hrevrect : ∀ row ∈ s.reverse, row.length = w :=
      fun row hrow => hrect row (List.mem_reverse.1 hrow)
    have hhead : (s.reverse.headD []).length = w := by
      cases hrev : s.reverse with
      | nil => exact absurd hrev hrevne
      | cons a t =>
        have ha : a ∈ s.reverse := by rw [hrev]; exact List.mem_cons_self a t
        simpa using hrevrect a ha
    unfold rotate pyZip
    rw [hhead, cellCount_pyZipAux w s.reverse hrevrect, cellCount_reverse]

theorem offsets_nil_rows (s : List (List Nat)) (h : ∀ row ∈ s, row.length = 0) :
    offsets s = [] := by
  unfold offsets
  rw [List.flatten_eq_nil_iff]
  intro l hl
  obtain ⟨pr, hpr, hback⟩ := List.mem_map.1 hl
  obtain ⟨i, row⟩ := pr
  have hget : s[i]? = some row := List.mem_enum_iff_getElem?.1 hpr
  have hrow : row ∈ s := List.getElem?_mem hget
  have hnil : row = [] := List.length_eq_zero.1 (h row hrow)
  rw [← hback, hnil]
  rfl

/-- C5: for every rectangular shape matrix, `rotate` equals
`transpose(reverse(rows))` (a 90° clockwise rotation), preserves the
occupied-cell count, rotating four times preserves the multiset of
occupied-cell offsets, and each of the seven canonical shapes has exactly 4
occupied cells before and after rotation. -/
theorem claim_c5_rotate (s : List (List Nat)) (w : Nat)
    (hrect : ∀ row ∈ s, row.length = w) :
    rotate s = transposeSpec s.reverse ∧
    cellCount (rotate s) = cellCount s ∧
    (offsets (rotate (rotate (rotate (rotate s)))) : Multiset (Nat × Nat)) =
      (offsets s : Multiset (Nat × Nat)) ∧
    (∀ k : Kind, cellCount (SHAPES k) = 4 ∧ cellCount (rotate (SHAPES k)) = 4) := by
  refine ⟨?_, cellCount_rotate s w hrect, ?_, ?_⟩
  · unfold rotate
    apply pyZip_eq_transposeSpec
    intro row hrow
    cases hrev : s.reverse with
    | nil => rw [hrev] at hrow; exact absurd hrow (List.not_mem_nil row)
    | cons a t =>
      have hrowm : row ∈ s := List.mem_reverse.1 hrow
      have ham : a ∈ s := List.mem_reverse.1 (by rw [hrev]; exact List.mem_cons_self a t)
      show row.length = ((a :: t).headD []).length
      rw [show (a :: t).headD [] = a from rfl, hrect row hrowm, hrect a ham]
  · by_cases hs : s.length = 0
    · have hnil : s = [] := List.length_eq_zero.1 hs
      rw [hnil]
      rfl
    · by_cases hw : w = 0
      · have hsne : s ≠ [] := fun hh => hs (by rw [hh]; rfl)
        have hrevne : s.reverse ≠ [] := by simp [hsne]
        have hrs : rotate s = [] := by
          have hhead : (s.reverse.headD []).length = 0 := by
            cases hrev : s.reverse with
            | nil => exact absurd hrev hrevne
            | cons a t =>
              have ha : a ∈ s.reverse := by rw [hrev]; exact List.mem_cons_self a t
              have hlen := hrect a (List.mem_reverse.1 ha)
              show a.length = 0
              omega
          unfold rotate pyZip
          rw [hhead]
          cases s.reverse <;> rfl
        rw [hrs]
        rw [show rotate (rotate (rotate ([] : List (List Nat)))) = [] from rfl]
        rw [offsets_nil_rows s (fun row hrow => by rw [hrect row hrow, hw])]
        rfl
      · rw [rotate_four s w (by omega) (by omega) hrect]
  · intro k
    cases k <;> exact ⟨by decide, by decide⟩

theorem claim_c5_witness :
    rotate (SHAPES Kind.T) = transposeSpec (SHAPES Kind.T).reverse ∧
    cellCount (rotate (SHAPES Kind.T)) = cellCount (SHAPES Kind.T) ∧
    (offsets (rotate (rotate (rotate (rotate (SHAPES Kind.T))))) : Multiset (Nat × Nat)) =
      (offsets (SHAPES Kind.T) : Multiset (Nat × Nat)) ∧
    cellCount (SHAPES Kind.S) = 4 := by
  have h := claim_c5_rotate (SHAPES Kind.T) 3 (by decide)
  exact ⟨h.1, h.2.1, h.2.2.1, (h.2.2.2 Kind.S).1⟩

end Tetris
